import Mathlib

/-!
Shallow embedding of the bulldozer log-harvesting pipeline
(`bulldozer.py` / `main.py`): an ArcGIS-server log client that
authenticates, pages through log records via a continuation cursor,
aggregates them into a frequency table keyed by a normalized log key,
writes a CSV report and optionally cleans the server logs.

Strings are modelled as `List Char`.  Python exceptions (KeyError on a
missing JSON field, TypeError on subscripting `None`) are modelled by
`Option`-valued functions (`none` = the exception propagates) and by the
`crash` outcome of the orchestrator.  The sequence of HTTP responses a
run observes is supplied as an explicit oracle (`List FetchResult`).
-/

namespace Bulldozer

/-- Strings of the embedded program: Python `str` as a list of characters. -/
abbrev Str := List Char

/-- Characters on which Python `str.splitlines` splits
(`\n`, `\r`, `\v`, `\f`, the file/group/record separators, NEL,
LINE SEPARATOR and PARAGRAPH SEPARATOR). -/
def isLineBreak (c : Char) : Bool :=
  c = '\n' || c = '\r' || c = '\x0b' || c = '\x0c' ||
  c = '\x1c' || c = '\x1d' || c = '\x1e' || c = '\x85' ||
  c = '\u2028' || c = '\u2029'

/-- Worker for `splitlines`: `cur` is the reversed current line.
A `\r\n` pair counts as a single line boundary; a trailing boundary
does not open a new (empty) final line, matching Python. -/
def splitlinesAux : List Char → List Char → List (List Char)
  | cur, [] => [cur.reverse]
  | cur, c :: rest =>
    if isLineBreak c then
      match rest with
      | [] => [cur.reverse]
      | c₂ :: rest₂ =>
        if c = '\r' ∧ c₂ = '\n' then
          if rest₂ = [] then [cur.reverse] else cur.reverse :: splitlinesAux [] rest₂
        else cur.reverse :: splitlinesAux [] (c₂ :: rest₂)
    else splitlinesAux (c :: cur) rest

/-- Python `str.splitlines()`; the empty string yields no lines. -/
def splitlines (s : Str) : List Str :=
  if s = [] then [] else splitlinesAux [] s

/-- Python `str.replace(a, b)` for single characters `a`, `b`. -/
def replaceChar (a b : Char) : Str → Str
  | [] => []
  | c :: rest => (if c = a then b else c) :: replaceChar a b rest

/-- Python `str.replace('  ', ' ')`: replaces non-overlapping double
spaces by single spaces, scanning left to right and resuming after each
replacement. -/
def replaceDoubleSpace : Str → Str
  | [] => []
  | [c] => [c]
  | c₁ :: c₂ :: rest =>
    if c₁ = ' ' ∧ c₂ = ' ' then ' ' :: replaceDoubleSpace rest
    else c₁ :: replaceDoubleSpace (c₂ :: rest)

/-- Does the string contain two adjacent spaces? -/
def hasDoubleSpace : Str → Bool
  | [] => false
  | [_] => false
  | c₁ :: c₂ :: rest => (c₁ = ' ' && c₂ = ' ') || hasDoubleSpace (c₂ :: rest)

/-- The apostrophe character, `'` (codepoint 39). -/
def apostrophe : Char := Char.ofNat 39

/-- The backtick character (codepoint 96). -/
def backtick : Char := Char.ofNat 96

/-- Python `' '.join(lines)`: concatenation with single spaces between
consecutive lines. -/
def joinSp : List Str → Str
  | [] => []
  | [x] => x
  | x :: y :: rest => x ++ ' ' :: joinSp (y :: rest)

/-- Function `clean_message` from the source: join the message lines with single
spaces, then replace commas by hyphens, collapse doubled spaces and
replace apostrophes by backticks. -/
def clean_message (s : Str) : Str :=
  replaceChar apostrophe backtick
    (replaceDoubleSpace
      (replaceChar ',' '-' (joinSp (splitlines s))))

/-- The `Message` namedtuple: the normalized log key.  Timestamp is
deliberately absent. -/
structure Message where
  severity : Str
  source : Str
  code : Str
  message : Str
  methodname : Str
deriving DecidableEq, Repr

/-- A raw log record as delivered by the server inside `logMessages`:
the fields `prune` reads, plus the timestamp it ignores. -/
structure RawRecord where
  type : Str
  source : Str
  code : Str
  message : Str
  methodName : Str
  time : Nat
deriving DecidableEq, Repr

/-- The decoded JSON response envelope shared by the three endpoints.
Each field is `none` when the corresponding key is absent from the
JSON object. -/
structure Envelope where
  status : Option Str
  messages : Option (List Str)
  hasMore : Option Bool
  endTime : Option Nat
  logMessages : Option (List RawRecord)
  token : Option Str
deriving DecidableEq, Repr

/-- Python truthiness of the decoded envelope dict: non-empty iff at
least one key is present. -/
def Envelope.truthy (d : Envelope) : Bool :=
  d.status.isSome || d.messages.isSome || d.hasMore.isSome ||
  d.endTime.isSome || d.logMessages.isSome || d.token.isSome

/-- One HTTP exchange as the client sees it: either the request raised a
`requests` transport exception, or a decoded JSON envelope came back. -/
inductive FetchResult where
  | transportError
  | ok (d : Envelope)
deriving DecidableEq, Repr

/-- Helper `return_false_for_status`: inspects the envelope for
`status == 'error'`; on an error it reads the `messages` field
(`none` models the KeyError raised when that field is absent) and
returns `(false, message)`, otherwise `(true, none)`. -/
def return_false_for_status (d : Envelope) : Option (Bool × Option Str) :=
  if d.status = some ("error".data) then
    match d.messages with
    | none => none
    | some msgs =>
      if ("Token Expired.".data) ∈ msgs then some (false, some ("Token expired".data))
      else some (false, some (List.intercalate ("; ".data) msgs))
  else some (true, none)

/-- Function `get_token` applied to the token endpoint's response.
Transport failures and server-reported errors yield `some none`
(Python `None`); a success reads `response_data['token']`, whose
absence raises (modelled `none`). -/
def get_token (r : FetchResult) : Option (Option Str) :=
  match r with
  | .transportError => some none
  | .ok d =>
    match return_false_for_status d with
    | none => none
    | some (false, _) => some none
    | some (true, _) =>
      match d.token with
      | none => none
      | some t => some (some t)

/-- Function `get_log_messages` applied to the query endpoint's
response.  Transport failures and server-reported errors yield the
sentinel `(None, None)`; otherwise the envelope is returned together
with the next start time, read from `endTime` only when `hasMore` is
present and true (`none` models the KeyError when `endTime` is then
absent). -/
def get_log_messages (r : FetchResult) : Option (Option Envelope × Option Nat) :=
  match r with
  | .transportError => some (none, none)
  | .ok d =>
    match return_false_for_status d with
    | none => none
    | some (false, _) => some (none, none)
    | some (true, _) =>
      let more_pages := d.hasMore.getD false
      if more_pages then
        match d.endTime with
        | none => none
        | some t => some (some d, some t)
      else some (some d, none)

/-- Function `clean_logs` applied to the deletion endpoint's response:
transport failures and server-reported errors are only logged; the
call returns normally (`none` models the KeyError when an error
envelope lacks `messages`). -/
def clean_logs (r : FetchResult) : Option Unit :=
  match r with
  | .transportError => some ()
  | .ok d =>
    match return_false_for_status d with
    | none => none
    | some _ => some ()

/-- Builder of the stripped `Message` inside `prune`: copies severity,
source, code and method name and cleans the message text; the record's
timestamp is ignored. -/
def stripRecord (m : RawRecord) : Message :=
  ⟨m.type, m.source, m.code, clean_message m.message, m.methodName⟩

/-- The frequency table `LOGS`: an insertion-ordered dictionary from
normalized log keys to counts, as a `Message`-keyed association list. -/
abbrev Table := List (Message × Nat)

/-- One `LOGS.setdefault(key, 0); LOGS[key] += 1` step: increment the
key's entry, adding it at the end with count 1 when absent (Python
dicts preserve insertion order). -/
def bump (t : Table) (k : Message) : Table :=
  if t.any (fun p => decide (p.1 = k)) then
    t.map (fun p => if p.1 = k then (p.1, p.2 + 1) else p)
  else t ++ [(k, 1)]

/-- Body of `prune` applied to the `logMessages` list of one page. -/
def pruneRecs (t : Table) (msgs : List RawRecord) : Table :=
  msgs.foldl (fun acc m => bump acc (stripRecord m)) t

/-- Function `prune`: reads `data['logMessages']` (`none` models the
KeyError when the field is absent) and counts every stripped record
into the table. -/
def prune (t : Table) (d : Envelope) : Option Table :=
  match d.logMessages with
  | none => none
  | some msgs => some (pruneRecs t msgs)

/-- Lookup of a key's count in the table (first matching entry),
0 when the key is absent. -/
def lookupCount (t : Table) (k : Message) : Nat :=
  match t with
  | [] => 0
  | p :: rest => if p.1 = k then p.2 else lookupCount rest k

/-- Keys of the table, in insertion order. -/
def keys (t : Table) : List Message :=
  t.map Prod.fst

/-- Aggregation of a whole run: fold `prune`'s body over the pages'
record lists, starting from the empty table. -/
def aggregatePages (pages : List (List RawRecord)) : Table :=
  pages.foldl pruneRecs []

/-- Total of all counts stored in the table. -/
def sumCounts (t : Table) : Nat :=
  (t.map Prod.snd).sum

/-- Invariant tying a table to the records counted into it: dictionary
keys are unique, every key's count is the number of records whose
normalized key it is, all counts are at least 1, and the counts total
the number of records. -/
def TableInv (t : Table) (recs : List RawRecord) : Prop :=
  (keys t).Nodup
    ∧ (∀ k, lookupCount t k
        = (recs.filter (fun r => decide (stripRecord r = k))).length)
    ∧ (∀ p ∈ t, 1 ≤ p.2)
    ∧ sumCounts t = recs.length

/-- Stable descending insertion: places `p` before the first entry
whose count is at most `p`'s.  Models one step of Python's stable
`sorted(..., key=count, reverse=True)`. -/
def insertDesc (p : Message × Nat) : Table → Table
  | [] => [p]
  | q :: rest => if q.2 ≤ p.2 then p :: q :: rest else q :: insertDesc p rest

/-- Python `sorted(logs.items(), key=lambda kvp: kvp[1], reverse=True)`:
a stable sort by count descending (extensionally unique, implemented
here as insertion sort). -/
def sortDesc (l : Table) : Table :=
  l.foldr insertDesc []

/-- The fixed CSV header row written by `write_logs`. -/
def headerRow : List Str :=
  ["severity".data, "source".data, "code".data, "message".data,
   "method name".data, "frequency".data]

/-- One CSV data row for a table entry. -/
def rowOf (p : Message × Nat) : List Str :=
  [p.1.severity, p.1.source, p.1.code, p.1.message, p.1.methodname,
   (Nat.repr p.2).data]

/-- Function `write_logs` as the rows it writes: the header followed by
one row per entry, sorted by frequency descending. -/
def write_logs (logs : Table) : List (List Str) :=
  headerRow :: (sortDesc logs).map rowOf

/-- The environment one `ship` run executes against: whether the machine
key is registered in `servers.py`, and the responses the token, query
and clean endpoints return (successive query calls consume `fetches`
front to back). -/
structure Env where
  registered : Bool
  tokenResponse : FetchResult
  fetches : List FetchResult
  cleanResponse : FetchResult
deriving DecidableEq, Repr

/-- What a completed `ship` call left behind: the final global `LOGS`
table, the report rows (`none` when `write_logs` was never reached),
the `startTime` option sent on each query call (`none` on the first),
and whether email/cleanup were performed. -/
structure ShipResult where
  finalLogs : Table
  report : Option (List (List Str))
  trace : List (Option Nat)
  emailed : Bool
  cleaned : Bool
deriving DecidableEq, Repr

/-- Outcome of a run: `exhausted` is a model artifact (the response
oracle ran out while the loop still wanted pages), `crash` is an
uncaught Python exception, `ret` is a normal return. -/
inductive ShipOutcome where
  | exhausted
  | crash
  | ret (r : ShipResult)
deriving DecidableEq, Repr

/-- Outcome of the pagination loop alone. -/
inductive LoopRes where
  | exhausted
  | crash
  | done (table : Table) (trace : List (Option Nat))
deriving DecidableEq, Repr

/-- Truthiness of the loop's cursor: Python `more` is truthy when it is
not `None` and not the number 0. -/
def cursorTruthy : Option Nat → Bool
  | none => false
  | some t => t ≠ 0

/-- The `while logs and more:` loop of `ship`: while the previous
envelope is truthy and the cursor is truthy, set `startTime` to the
cursor, fetch, and prune the fetched page.  `prune` is applied to the
result unconditionally, so a sentinel `(None, None)` mid-loop crashes
(Python `None['logMessages']` raises TypeError). -/
def harvestLoop (logs : Option Envelope) (more : Option Nat)
    (responses : List FetchResult) (table : Table)
    (trace : List (Option Nat)) : LoopRes :=
  if (match logs with | some d => d.truthy | none => false) && cursorTruthy more then
    match responses with
    | [] => .exhausted
    | r :: rest =>
      match get_log_messages r with
      | none => .crash
      | some (logs', more') =>
        match logs' with
        | none => .crash
        | some d =>
          match prune table d with
          | none => .crash
          | some table' => harvestLoop (some d) more' rest table' (trace ++ [more])
  else .done table trace

/-- Function `ship` up to (and excluding) the optional cleanup step,
starting from the current value of the module-level global `LOGS`. -/
def shipCore (env : Env) (send_mail : Bool) (logs0 : Table) : ShipOutcome :=
  if !env.registered then .ret ⟨logs0, none, [], false, false⟩
  else
    match get_token env.tokenResponse with
    | none => .crash
    | some none => .ret ⟨logs0, none, [], false, false⟩
    | some (some tok) =>
      if tok = [] then .ret ⟨logs0, none, [], false, false⟩
      else
        match env.fetches with
        | [] => .exhausted
        | r :: rest =>
          match get_log_messages r with
          | none => .crash
          | some (logs, more) =>
            if logs = none ∧ more = none then .ret ⟨logs0, none, [none], false, false⟩
            else
              match
                (match logs with
                 | some d => if d.truthy then prune logs0 d else some logs0
                 | none => some logs0) with
              | none => .crash
              | some table0 =>
                match harvestLoop logs more rest table0 [none] with
                | .exhausted => .exhausted
                | .crash => .crash
                | .done table trace =>
                  .ret ⟨table, some (write_logs table), trace, send_mail, false⟩

/-- Function `ship`: the orchestrator.  Cleanup runs only on the path
that reached `write_logs` (all earlier exits return before it), and a
KeyError inside `clean_logs` crashes the run. -/
def ship (env : Env) (remove_logs send_mail : Bool) (logs0 : Table) : ShipOutcome :=
  match shipCore env send_mail logs0 with
  | .ret r =>
    if r.report.isSome ∧ remove_logs then
      match clean_logs env.cleanResponse with
      | none => .crash
      | some _ => .ret ⟨r.finalLogs, r.report, r.trace, r.emailed, true⟩
    else .ret r
  | o => o

/-- A generate-token success envelope carrying the token `tok`. -/
def tokenOk : FetchResult :=
  .ok ⟨none, none, none, none, none, some ("tok".data)⟩

/-- A query page reporting more results behind cursor `t`. -/
def mkMid (recs : List RawRecord) (t : Nat) : Envelope :=
  ⟨none, none, some true, some t, some recs, none⟩

/-- A terminal query page (`hasMore = false`). -/
def mkLast (recs : List RawRecord) : Envelope :=
  ⟨none, none, some false, none, some recs, none⟩

/-- A server-reported error envelope with a message list. -/
def errEnvelope : Envelope :=
  ⟨some ("error".data), some [("Unable to query logs.".data)], none, none, none, none⟩

/-- Sample log records; `recA` and `recA2` differ only in timestamp. -/
def recA : RawRecord :=
  ⟨"SEVERE".data, "Rest".data, "9999".data, "boom".data, "handle".data, 100⟩

/-- Sample record equal to `recA` except for its timestamp. -/
def recA2 : RawRecord :=
  ⟨"SEVERE".data, "Rest".data, "9999".data, "boom".data, "handle".data, 200⟩

/-- Sample record with a different normalized key. -/
def recB : RawRecord :=
  ⟨"WARNING".data, "Admin".data, "7777".data, "slow".data, "draw".data, 300⟩

/-- Normalized key of `recA` (and of `recA2`). -/
def keyA : Message := stripRecord recA

/-- Normalized key of `recB`. -/
def keyB : Message := stripRecord recB

/-- A query response that neither returns the sentinel nor raises: it
decodes to a successful page whose `logMessages` field is present. -/
def GoodFetch (r : FetchResult) : Prop :=
  ∃ d c, get_log_messages r = some (some d, c) ∧ d.logMessages.isSome = true

/-- Deletion-endpoint responses the spec calls non-fatal: a transport
failure, or a server-reported error envelope carrying its `messages`
list. -/
def CleanFailure (r : FetchResult) : Prop :=
  r = .transportError ∨
  ∃ d, r = .ok d ∧ d.status = some ("error".data) ∧ d.messages.isSome = true

/-- Well-formedness of a query response, under which the page fetcher
never raises: a `hasMore = true` envelope carries `endTime`, and an
error envelope carries `messages`. -/
def WellFormedFetch : FetchResult → Prop
  | .transportError => True
  | .ok d =>
    (d.hasMore = some true → d.endTime.isSome = true) ∧
    (d.status = some ("error".data) → d.messages.isSome = true)

/-- An error envelope that lacks its `messages` field. -/
def errNoMessages : Envelope :=
  ⟨some ("error".data), none, none, none, none, none⟩

/-- A successful envelope claiming more pages but lacking `endTime`. -/
def moreNoEndTime : Envelope :=
  ⟨none, none, some true, none, some [], none⟩

/-- Final `LOGS` table of a run (empty for non-returning outcomes). -/
def outLogs : ShipOutcome → Table
  | .ret r => r.finalLogs
  | _ => []

/-- Report rows of a run (empty when no report was written). -/
def outReport : ShipOutcome → List (List Str)
  | .ret r => r.report.getD []
  | _ => []

/-- First run of the shared-global scenario: harvests `recA` only. -/
def envRun1 : Env := ⟨true, tokenOk, [.ok (mkLast [recA])], .transportError⟩

/-- Second run of the shared-global scenario: harvests `recB` only. -/
def envRun2 : Env := ⟨true, tokenOk, [.ok (mkLast [recB])], .transportError⟩

/-- C1: the spec says a continuation fetch returning the sentinel
`(None, None)` truncates the harvest gracefully and the report is still
written.  The code instead calls `prune(None)` in the loop body, which
raises TypeError: on a run whose first page succeeds (aggregating
`recA`) and whose second fetch is a transport failure, `ship` crashes
and no report is written. -/
theorem c1_midloop_sentinel_crashes :
    ship ⟨true, tokenOk, [.ok (mkMid [recA] 5), .transportError], .transportError⟩
      false false [] = ShipOutcome.crash := by decide

/-- C2 counterexample: a run whose very first fetch succeeds (a page
carrying `recB` with more results pending) but whose second fetch
returns the server-error sentinel crashes in `prune(None)`, so no
report file is written, contradicting the claim that a successful
first fetch always yields a report. -/
theorem c2_counterexample :
    ship ⟨true, tokenOk, [.ok (mkMid [recB] 7), .ok errEnvelope], .transportError⟩
      false false [] = ShipOutcome.crash := by decide

/-- C4 counterexample: `LOGS` is a module-level global that `ship`
never resets.  Running `ship` twice in one process (first run harvests
`recA`, second only `recB`, whose key differs from `recA`'s) leaves
`recA`'s row, with its count from the first run, in the second run's
report. -/
theorem c4_counterexample :
    rowOf (keyA, 1) ∈
        outReport (ship envRun2 false false (outLogs (ship envRun1 false false [])))
      ∧ stripRecord recB ≠ keyA
      ∧ keyA ∈ keys (outLogs (ship envRun1 false false [])) := by decide

/-- C5 counterexample: `clean_message` is not idempotent: three
consecutive spaces collapse to two on the first pass and to one on the
second, because `str.replace('  ', ' ')` only rewrites non-overlapping
occurrences. -/
theorem c5_counterexample :
    clean_message (clean_message ("a   b".data)) ≠ clean_message ("a   b".data) := by
  decide

/-- C10 counterexample: the precondition `hasMore = true → endTime
present` does not make the fetch total: an envelope with
`status = 'error'` but no `messages` field satisfies it vacuously, yet
`get_log_messages` still raises (KeyError in
`return_false_for_status`). -/
theorem c10_counterexample :
    (errNoMessages.hasMore = some true → errNoMessages.endTime.isSome = true)
      ∧ get_log_messages (.ok errNoMessages) = none := by decide

/-- C3: when the token endpoint rejects the credentials (`get_token`
obtains no token), `ship` returns normally with the table untouched,
no fetch performed (empty call trace) and no report written. -/
theorem c3_auth_reject (env : Env) (rm m : Bool) (L0 : Table)
    (hreg : env.registered = true)
    (hrej : get_token env.tokenResponse = some none) :
    ship env rm m L0 = .ret ⟨L0, none, [], false, false⟩ := by
  simp [ship, shipCore, hreg, hrej]

/-- Witness for C3 at a concrete run: a server-error token response. -/
theorem c3_auth_reject_witness :
    ship ⟨true, .ok errEnvelope, [.ok (mkLast [recA])], .transportError⟩ false false []
      = .ret ⟨[], none, [], false, false⟩ :=
  c3_auth_reject _ false false [] rfl (by decide)

/-- Responses the spec declares non-fatal make `clean_logs` return
normally. -/
theorem clean_logs_of_CleanFailure (r : FetchResult) (h : CleanFailure r) :
    clean_logs r = some () := by
  rcases h with rfl | ⟨d, rfl, hst, hm⟩
  · rfl
  · rcases hmsg : d.messages with _ | msgs
    · rw [hmsg] at hm; simp at hm
    · by_cases htok : ("Token Expired.".data) ∈ msgs <;>
        simp [clean_logs, return_false_for_status, hst, hmsg, htok]

/-- A `ship` call without cleanup returns exactly what `shipCore`
produced. -/
theorem ship_false_ret {env : Env} {m : Bool} {L0 : Table} {r : ShipResult}
    (h : ship env false m L0 = .ret r) : shipCore env m L0 = .ret r := by
  unfold ship at h
  cases hc : shipCore env m L0 with
  | exhausted => rw [hc] at h; simp at h
  | crash => rw [hc] at h; simp at h
  | ret r' => rw [hc] at h; simp at h; rw [h]

/-- C9: after a run that wrote its report, a requested cleanup whose
deletion endpoint fails (transport failure or server-reported error)
returns normally and changes neither the frequency table nor the
report. -/
theorem c9_cleanup_nonfatal (env : Env) (m : Bool) (L0 : Table) (r : ShipResult)
    (rep : List (List Str))
    (hclean : CleanFailure env.cleanResponse)
    (hrun : ship env false m L0 = .ret r)
    (hrep : r.report = some rep) :
    ship env true m L0 = .ret ⟨r.finalLogs, r.report, r.trace, r.emailed, true⟩ := by
  have hcore := ship_false_ret hrun
  unfold ship
  rw [hcore]
  have hsome : r.report.isSome = true := by rw [hrep]; rfl
  simp [hsome, clean_logs_of_CleanFailure _ hclean]

/-- Witness for C9: a one-page harvest followed by a cleanup whose
endpoint reports an error; the report and table are those of the
cleanup-free run. -/
theorem c9_cleanup_nonfatal_witness :
    ship ⟨true, tokenOk, [.ok (mkLast [recA])], .ok errEnvelope⟩ true false []
      = .ret ⟨[(keyA, 1)], some (write_logs [(keyA, 1)]), [none], false, true⟩ :=
  c9_cleanup_nonfatal _ false []
    ⟨[(keyA, 1)], some (write_logs [(keyA, 1)]), [none], false, false⟩
    (write_logs [(keyA, 1)])
    (Or.inr ⟨errEnvelope, rfl, rfl, rfl⟩) (by decide) rfl

/-- C10 (amended): the fetcher reads `endTime` exactly when `hasMore`
is present and true, and that read is unguarded — an error-free
envelope with `hasMore = true` but no `endTime` raises.  Totality
holds under the precondition that `hasMore = true` envelopes carry
`endTime` AND error envelopes carry `messages`. -/
theorem c10_endTime_guard :
    (∀ d : Envelope, d.status ≠ some ("error".data) → d.hasMore = some true →
        d.endTime = none → get_log_messages (.ok d) = none)
    ∧ ∀ r : FetchResult, WellFormedFetch r → (get_log_messages r).isSome = true := by
  constructor
  · intro d hst hm he
    simp [get_log_messages, return_false_for_status, hst, hm, he]
  · intro r hr
    cases r with
    | transportError => rfl
    | ok d =>
      obtain ⟨h1, h2⟩ := hr
      by_cases hst : d.status = some ("error".data)
      · obtain ⟨msgs, hmsg⟩ := Option.isSome_iff_exists.mp (h2 hst)
        by_cases htok : ("Token Expired.".data) ∈ msgs <;>
          simp [get_log_messages, return_false_for_status, hst, hmsg, htok]
      · simp only [get_log_messages, return_false_for_status, hst, if_neg]
        cases hm : d.hasMore with
        | none => simp
        | some b =>
          cases b with
          | false => simp
          | true =>
            obtain ⟨t, ht⟩ := Option.isSome_iff_exists.mp (h1 hm)
            simp [ht]

/-- Witness for C10 (amended): the guard fires on a concrete
`hasMore`-without-`endTime` envelope, and a transport failure is a
well-formed fetch with a defined result. -/
theorem c10_endTime_guard_witness :
    get_log_messages (.ok moreNoEndTime) = none
      ∧ (get_log_messages .transportError).isSome = true :=
  ⟨c10_endTime_guard.1 moreNoEndTime (by decide) rfl rfl,
   c10_endTime_guard.2 .transportError trivial⟩

/-- Replacing a character it does not contain leaves a string alone. -/
theorem replaceChar_of_not_mem {a b : Char} {s : Str} (h : a ∉ s) :
    replaceChar a b s = s := by
  induction s with
  | nil => rfl
  | cons c rest ih =>
    rw [List.mem_cons, not_or] at h
    rw [replaceChar, if_neg (fun hc => h.1 hc.symm), ih h.2]

/-- After `replaceChar a b`, the character `a` is gone (for `a ≠ b`). -/
theorem not_mem_replaceChar {a b : Char} (hab : a ≠ b) (s : Str) :
    a ∉ replaceChar a b s := by
  induction s with
  | nil => simp [replaceChar]
  | cons c rest ih =>
    rw [replaceChar]
    intro hmem
    rcases List.mem_cons.mp hmem with heq | hmem'
    · by_cases hc : c = a
      · rw [if_pos hc] at heq; exact hab heq
      · rw [if_neg hc] at heq; exact hc heq.symm
    · exact ih hmem'

/-- Characters of `replaceChar a b s` come from `s` or are `b`. -/
theorem mem_replaceChar {a b c : Char} {s : Str} (hc : c ∈ replaceChar a b s) :
    c ∈ s ∨ c = b := by
  induction s with
  | nil => simp [replaceChar] at hc
  | cons d rest ih =>
    rw [replaceChar] at hc
    rcases List.mem_cons.mp hc with heq | hmem
    · by_cases hd : d = a
      · rw [if_pos hd] at heq; exact Or.inr heq
      · rw [if_neg hd] at heq
        exact Or.inl (heq ▸ List.mem_cons_self d rest)
    · rcases ih hmem with h | h
      · exact Or.inl (List.mem_cons_of_mem d h)
      · exact Or.inr h

/-- Characters of `replaceDoubleSpace s` all come from `s`. -/
theorem mem_replaceDoubleSpace {s : Str} {c : Char}
    (hc : c ∈ replaceDoubleSpace s) : c ∈ s := by
  induction s using replaceDoubleSpace.induct with
  | case1 => simp [replaceDoubleSpace] at hc
  | case2 d => simpa [replaceDoubleSpace] using hc
  | case3 c₁ c₂ rest h ih =>
    rw [replaceDoubleSpace, if_pos h] at hc
    rcases List.mem_cons.mp hc with rfl | hc'
    · rw [h.1]; exact List.mem_cons_self _ _
    · exact List.mem_cons_of_mem _ (List.mem_cons_of_mem _ (ih hc'))
  | case4 c₁ c₂ rest h ih =>
    rw [replaceDoubleSpace, if_neg h] at hc
    rcases List.mem_cons.mp hc with rfl | hc'
    · exact List.mem_cons_self _ _
    · exact List.mem_cons_of_mem _ (ih hc')

/-- On a string without two adjacent spaces, `replaceDoubleSpace` is
the identity. -/
theorem replaceDoubleSpace_of_no_double {s : Str}
    (h : hasDoubleSpace s = false) : replaceDoubleSpace s = s := by
  induction s using replaceDoubleSpace.induct with
  | case1 => rfl
  | case2 d => rfl
  | case3 c₁ c₂ rest hp ih =>
    rw [hasDoubleSpace] at h
    simp [hp.1, hp.2] at h
  | case4 c₁ c₂ rest hp ih =>
    rw [hasDoubleSpace, Bool.or_eq_false_iff] at h
    rw [replaceDoubleSpace, if_neg hp, ih h.2]

/-- Characters of the space-join come from the lines or are spaces. -/
theorem mem_joinSp {c : Char} {parts : List Str} (hc : c ∈ joinSp parts) :
    (∃ p ∈ parts, c ∈ p) ∨ c = ' ' := by
  induction parts using joinSp.induct with
  | case1 => simp [joinSp] at hc
  | case2 x => exact Or.inl ⟨x, List.mem_cons_self _ _, by simpa [joinSp] using hc⟩
  | case3 x y rest ih =>
    rw [joinSp] at hc
    rcases List.mem_append.mp hc with hx | hc'
    · exact Or.inl ⟨x, List.mem_cons_self _ _, hx⟩
    · rcases List.mem_cons.mp hc' with rfl | hc''
      · exact Or.inr rfl
      · rcases ih hc'' with ⟨p, hp, hcp⟩ | h
        · exact Or.inl ⟨p, List.mem_cons_of_mem _ hp, hcp⟩
        · exact Or.inr h

/-- On a line-break-free string, `splitlinesAux` yields a single line. -/
theorem splitlinesAux_of_breakfree :
    ∀ (s : Str), (∀ c ∈ s, isLineBreak c = false) →
      ∀ cur, splitlinesAux cur s = [cur.reverse ++ s] := by
  intro s
  induction s with
  | nil => intro _ cur; simp [splitlinesAux]
  | cons c rest ih =>
    intro h cur
    have hc : isLineBreak c = false := h c (List.mem_cons_self c rest)
    have hrest : ∀ x ∈ rest, isLineBreak x = false :=
      fun x hx => h x (List.mem_cons_of_mem c hx)
    rw [splitlinesAux.eq_def]
    dsimp only
    rw [hc]
    simp only [Bool.false_eq_true, if_false]
    rw [ih hrest (c :: cur)]
    simp

/-- Python `splitlines` of a non-empty break-free string is that
string alone. -/
theorem splitlines_of_breakfree {s : Str} (hne : s ≠ [])
    (h : ∀ c ∈ s, isLineBreak c = false) : splitlines s = [s] := by
  rw [splitlines, if_neg hne, splitlinesAux_of_breakfree s h []]
  rfl

/-- Every line produced by `splitlinesAux` is free of line breaks,
provided the accumulator is. -/
theorem splitlinesAux_parts_breakfree :
    ∀ (cur s : Str), (∀ c ∈ cur, isLineBreak c = false) →
      ∀ part ∈ splitlinesAux cur s, ∀ c ∈ part, isLineBreak c = false := by
  intro cur s
  induction cur, s using splitlinesAux.induct with
  | case1 cur =>
    intro hcur part hp c hc
    simp only [splitlinesAux, List.mem_singleton] at hp
    subst hp
    exact hcur c (List.mem_reverse.mp hc)
  | case2 cur c' hbrk =>
    intro hcur part hp c hc
    simp only [splitlinesAux, hbrk, if_true, List.mem_singleton] at hp
    subst hp
    exact hcur c (List.mem_reverse.mp hc)
  | case3 cur c' hbrk c₂ hpair =>
    intro hcur part hp c hc
    obtain ⟨rfl, rfl⟩ := hpair
    simp only [splitlinesAux, hbrk, if_true, and_self, List.mem_singleton] at hp
    subst hp
    exact hcur c (List.mem_reverse.mp hc)
  | case4 cur c' hbrk c₂ rest₂ hpair hne ih =>
    intro hcur part hp c hc
    obtain ⟨rfl, rfl⟩ := hpair
    simp only [splitlinesAux, hbrk, hne, if_true, and_self, if_false,
      List.mem_cons] at hp
    rcases hp with rfl | hp'
    · exact hcur c (List.mem_reverse.mp hc)
    · exact ih (by simp) part hp' c hc
  | case5 cur c' hbrk c₂ rest₂ hpair ih =>
    intro hcur part hp c hc
    simp only [splitlinesAux, hbrk, hpair, if_true, if_false, List.mem_cons] at hp
    rcases hp with rfl | hp'
    · exact hcur c (List.mem_reverse.mp hc)
    · exact ih (by simp) part hp' c hc
  | case6 cur c' rest hbrk ih =>
    intro hcur part hp c hc
    have hcf : isLineBreak c' = false := by
      cases hb : isLineBreak c' with
      | false => rfl
      | true => exact absurd hb hbrk
    rw [splitlinesAux.eq_def] at hp
    dsimp only at hp
    rw [hcf] at hp
    simp only [Bool.false_eq_true, if_false] at hp
    refine ih (fun x hx => ?_) part hp c hc
    rcases List.mem_cons.mp hx with rfl | hx'
    · exact hcf
    · exact hcur x hx'

/-- Every character of a cleaned message is line-break free. -/
theorem clean_message_breakfree (s : Str) :
    ∀ c ∈ clean_message s, isLineBreak c = false := by
  intro c hc
  rcases mem_replaceChar hc with hc1 | rfl
  · rcases mem_replaceChar (mem_replaceDoubleSpace hc1) with hc2 | rfl
    · rcases mem_joinSp hc2 with ⟨p, hp, hcp⟩ | rfl
      · rw [splitlines] at hp
        by_cases hs : s = []
        · rw [if_pos hs] at hp; simp at hp
        · rw [if_neg hs] at hp
          exact splitlinesAux_parts_breakfree [] s (by simp) p hp c hcp
      · rfl
    · rfl
  · rfl

/-- A cleaned message contains no comma. -/
theorem clean_message_comma_free (s : Str) : ',' ∉ clean_message s := by
  intro hc
  rcases mem_replaceChar hc with hc1 | hbt
  · exact not_mem_replaceChar (by decide) _ (mem_replaceDoubleSpace hc1)
  · exact absurd hbt (by decide)

/-- A cleaned message contains no apostrophe. -/
theorem clean_message_apo_free (s : Str) : apostrophe ∉ clean_message s :=
  not_mem_replaceChar (by decide) _

/-- C5 (amended): `clean_message` is idempotent on every string whose
cleaned form has no two adjacent spaces; the counterexample shows a
second pass can still collapse doubled spaces that survive the first
(three-in-a-row input spaces). -/
theorem c5_clean_message_idempotent (s : Str)
    (h : hasDoubleSpace (clean_message s) = false) :
    clean_message (clean_message s) = clean_message s := by
  by_cases ht : clean_message s = []
  · rw [ht]; rfl
  · rw [clean_message, splitlines_of_breakfree ht (clean_message_breakfree s)]
    show replaceChar apostrophe backtick
      (replaceDoubleSpace (replaceChar ',' '-' (clean_message s))) = clean_message s
    rw [replaceChar_of_not_mem (clean_message_comma_free s),
        replaceDoubleSpace_of_no_double h,
        replaceChar_of_not_mem (clean_message_apo_free s)]

/-- Witness for C5 (amended) at the spec's own normalization scenario
string, whose cleaned form has no doubled space. -/
theorem c5_clean_message_idempotent_witness :
    clean_message (clean_message
        ("line1\nline2,with,commas  double  space".data ++ [apostrophe] ++ "s".data))
      = clean_message
        ("line1\nline2,with,commas  double  space".data ++ [apostrophe] ++ "s".data) :=
  c5_clean_message_idempotent _ (by decide)

/-- Membership in a descending insertion. -/
theorem mem_insertDesc {x p : Message × Nat} {l : Table} :
    x ∈ insertDesc p l ↔ x = p ∨ x ∈ l := by
  induction l with
  | nil => simp [insertDesc]
  | cons q rest ih =>
    rw [insertDesc]
    by_cases h : q.2 ≤ p.2
    · rw [if_pos h]; simp [List.mem_cons]
    · rw [if_neg h]; simp [List.mem_cons, ih]; tauto

/-- Descending insertion permutes the inserted element into the list. -/
theorem insertDesc_perm (p : Message × Nat) (l : Table) :
    (insertDesc p l).Perm (p :: l) := by
  induction l with
  | nil => exact List.Perm.refl _
  | cons q rest ih =>
    rw [insertDesc]
    by_cases h : q.2 ≤ p.2
    · rw [if_pos h]
    · rw [if_neg h]
      exact (ih.cons q).trans (List.Perm.swap p q rest)

/-- The implemented sort permutes its input. -/
theorem sortDesc_perm (l : Table) : (sortDesc l).Perm l := by
  induction l with
  | nil => exact List.Perm.nil
  | cons p rest ih =>
    exact (insertDesc_perm p (sortDesc rest)).trans (ih.cons p)

/-- Descending insertion preserves descending order. -/
theorem insertDesc_pairwise {p : Message × Nat} {l : Table}
    (hl : l.Pairwise (fun a b => b.2 ≤ a.2)) :
    (insertDesc p l).Pairwise (fun a b => b.2 ≤ a.2) := by
  induction l with
  | nil => simp [insertDesc]
  | cons q rest ih =>
    rw [insertDesc]
    rcases List.pairwise_cons.mp hl with ⟨hq, hrest⟩
    by_cases h : q.2 ≤ p.2
    · rw [if_pos h]
      refine List.pairwise_cons.mpr ⟨?_, hl⟩
      intro x hx
      rcases List.mem_cons.mp hx with rfl | hx'
      · exact h
      · exact le_trans (hq x hx') h
    · rw [if_neg h]
      refine List.pairwise_cons.mpr ⟨?_, ih hrest⟩
      intro x hx
      rcases mem_insertDesc.mp hx with rfl | hx'
      · exact Nat.le_of_lt (Nat.lt_of_not_le h)
      · exact hq x hx'

/-- The implemented sort is sorted by count, descending. -/
theorem sortDesc_pairwise (l : Table) :
    (sortDesc l).Pairwise (fun a b => b.2 ≤ a.2) := by
  induction l with
  | nil => simp [sortDesc]
  | cons p rest ih => exact insertDesc_pairwise ih

/-- Entries of a given count, after a descending insertion: the new
element lands in front of its ties. -/
theorem insertDesc_filter (p : Message × Nat) (l : Table) (n : Nat) :
    (insertDesc p l).filter (fun q => decide (q.2 = n))
      = if p.2 = n then p :: l.filter (fun q => decide (q.2 = n))
        else l.filter (fun q => decide (q.2 = n)) := by
  induction l with
  | nil => by_cases hn : p.2 = n <;> simp [insertDesc, hn]
  | cons q rest ih =>
    rw [insertDesc]
    by_cases h : q.2 ≤ p.2
    · rw [if_pos h]
      by_cases hn : p.2 = n <;> simp [List.filter_cons, hn]
    · rw [if_neg h]
      by_cases hn : p.2 = n
      · have hqn : ¬ q.2 = n := fun hq => h (le_of_eq (hq.trans hn.symm))
        simp [List.filter_cons, hqn, hn, ih]
      · simp [List.filter_cons, hn, ih]

/-- Stability of the sort: the entries carrying any fixed count appear
in the sorted output exactly in their input order. -/
theorem sortDesc_filter (l : Table) (n : Nat) :
    (sortDesc l).filter (fun q => decide (q.2 = n))
      = l.filter (fun q => decide (q.2 = n)) := by
  induction l with
  | nil => rfl
  | cons p rest ih =>
    show (insertDesc p (sortDesc rest)).filter _ = _
    rw [insertDesc_filter]
    by_cases hn : p.2 = n <;> simp [List.filter_cons, hn, ih]

/-- C7: the report is the fixed header row followed by one row per
table entry; the emitted entry order is a permutation of the table,
sorted by frequency descending (so adjacent frequencies are
non-increasing), and stable: for every count, the tied entries keep
the table's iteration order.  The output is a function of the input,
hence deterministic. -/
theorem c7_report_sorted_stable (logs : Table) :
    ∃ sorted : Table,
      write_logs logs = headerRow :: sorted.map rowOf
        ∧ sorted.Perm logs
        ∧ sorted.Pairwise (fun a b => b.2 ≤ a.2)
        ∧ ∀ n : Nat, sorted.filter (fun q => decide (q.2 = n))
            = logs.filter (fun q => decide (q.2 = n)) :=
  ⟨sortDesc logs, rfl, sortDesc_perm logs, sortDesc_pairwise logs,
   fun n => sortDesc_filter logs n⟩

/-- Keys of a table cell-by-cell. -/
theorem keys_cons (p : Message × Nat) (rest : Table) :
    keys (p :: rest) = p.1 :: keys rest := rfl

/-- The `setdefault` membership test decides key membership. -/
theorem any_key_iff {t : Table} {k : Message} :
    t.any (fun p => decide (p.1 = k)) = true ↔ k ∈ keys t := by
  rw [List.any_eq_true]
  constructor
  · rintro ⟨p, hp, hdec⟩
    exact List.mem_map.mpr ⟨p, hp, of_decide_eq_true hdec⟩
  · intro hk
    rcases List.mem_map.mp hk with ⟨p, hp, hpk⟩
    exact ⟨p, hp, decide_eq_true hpk⟩

/-- Absent keys have count zero. -/
theorem lookupCount_eq_zero_of_not_mem {t : Table} {k : Message}
    (h : k ∉ keys t) : lookupCount t k = 0 := by
  induction t with
  | nil => rfl
  | cons p rest ih =>
    rw [keys_cons, List.mem_cons, not_or] at h
    rw [lookupCount, if_neg (fun he => h.1 he.symm)]
    exact ih h.2

/-- Looking up the key just appended with count 1. -/
theorem lookupCount_append_single_self {t : Table} {k : Message}
    (h : k ∉ keys t) : lookupCount (t ++ [(k, 1)]) k = 1 := by
  induction t with
  | nil => simp [lookupCount]
  | cons p rest ih =>
    rw [keys_cons, List.mem_cons, not_or] at h
    rw [List.cons_append, lookupCount, if_neg (fun he => h.1 he.symm)]
    exact ih h.2

/-- Appending a fresh entry leaves other lookups unchanged. -/
theorem lookupCount_append_single_other {t : Table} {k k' : Message}
    (h : k' ≠ k) : lookupCount (t ++ [(k, 1)]) k' = lookupCount t k' := by
  induction t with
  | nil => simp [lookupCount, Ne.symm h]
  | cons p rest ih =>
    rw [List.cons_append, lookupCount, lookupCount]
    by_cases hp : p.1 = k'
    · rw [if_pos hp, if_pos hp]
    · rw [if_neg hp, if_neg hp, ih]

/-- Lookup through the increment map of `bump`'s present-key branch. -/
theorem lookupCount_bump_map {t : Table} {k k' : Message}
    (hmem : k' = k → k ∈ keys t) :
    lookupCount (t.map (fun p => if p.1 = k then (p.1, p.2 + 1) else p)) k'
      = lookupCount t k' + (if k' = k then 1 else 0) := by
  induction t with
  | nil =>
    by_cases h : k' = k
    · exact absurd (hmem h) (by simp [keys])
    · simp [lookupCount, h]
  | cons p rest ih =>
    rw [List.map_cons]
    by_cases hpk' : p.1 = k'
    · by_cases hpk : p.1 = k
      · have hkk : k' = k := hpk'.symm.trans hpk
        simp [lookupCount, hpk, hpk', hkk]
      · have hkk : ¬ k' = k := fun he => hpk (hpk'.trans he)
        simp [lookupCount, hpk, hpk', hkk]
    · have hmem' : k' = k → k ∈ keys rest := by
        intro he
        rcases List.mem_cons.mp (hmem he) with hk | hk
        · exact absurd (he.trans hk).symm hpk'
        · exact hk
      by_cases hpk : p.1 = k
      · have hkk' : ¬ k = k' := fun he => hpk' (hpk.trans he)
        simp [lookupCount, hpk, hpk', hkk', ih hmem']
      · simp [lookupCount, hpk, hpk', ih hmem']

/-- The increment map is the identity when the key is absent. -/
theorem map_bump_eq_self {t : Table} {k : Message} (h : k ∉ keys t) :
    t.map (fun p => if p.1 = k then (p.1, p.2 + 1) else p) = t := by
  induction t with
  | nil => rfl
  | cons p rest ih =>
    rw [keys_cons, List.mem_cons, not_or] at h
    rw [List.map_cons, if_neg (fun he => h.1 he.symm), ih h.2]

/-- The increment map preserves the key sequence. -/
theorem keys_bump_map {t : Table} {k : Message} :
    keys (t.map (fun p => if p.1 = k then (p.1, p.2 + 1) else p)) = keys t := by
  induction t with
  | nil => rfl
  | cons p rest ih =>
    rw [List.map_cons, keys_cons, keys_cons, ih]
    by_cases hpk : p.1 = k
    · rw [if_pos hpk]
    · rw [if_neg hpk]

/-- Incrementing a present key adds exactly 1 to the total count. -/
theorem sumCounts_bump_map {t : Table} {k : Message}
    (hnd : (keys t).Nodup) (hk : k ∈ keys t) :
    sumCounts (t.map (fun p => if p.1 = k then (p.1, p.2 + 1) else p))
      = sumCounts t + 1 := by
  induction t with
  | nil => exact absurd hk (by simp [keys])
  | cons p rest ih =>
    rw [keys_cons] at hnd hk
    rcases List.pairwise_cons.mp hnd with ⟨hph, hndr⟩
    by_cases hpk : p.1 = k
    · have hkr : k ∉ keys rest := fun hmem => hph k hmem (hpk ▸ rfl)
      rw [List.map_cons, if_pos hpk, map_bump_eq_self hkr]
      simp [sumCounts]
      omega
    · have hk' : k ∈ keys rest := by
        rcases List.mem_cons.mp hk with hk0 | hk0
        · exact absurd hk0.symm hpk
        · exact hk0
      have ihr := ih hndr hk'
      rw [List.map_cons, if_neg hpk]
      simp only [sumCounts, List.map_cons, List.sum_cons] at ihr ⊢
      omega

/-- Effect of one `bump` on any lookup. -/
theorem lookupCount_bump {t : Table} {k k' : Message} :
    lookupCount (bump t k) k'
      = lookupCount t k' + (if k' = k then 1 else 0) := by
  by_cases hany : t.any (fun p => decide (p.1 = k)) = true
  · rw [bump, if_pos hany]
    exact lookupCount_bump_map (fun _ => any_key_iff.mp hany)
  · rw [bump, if_neg hany]
    have hk : k ∉ keys t := fun h => hany (any_key_iff.mpr h)
    by_cases hk' : k' = k
    · subst hk'
      rw [lookupCount_append_single_self hk,
          lookupCount_eq_zero_of_not_mem hk]
      simp
    · rw [lookupCount_append_single_other hk']
      simp [hk']

/-- Effect of one `bump` on the total count. -/
theorem sumCounts_bump {t : Table} {k : Message} (hnd : (keys t).Nodup) :
    sumCounts (bump t k) = sumCounts t + 1 := by
  by_cases hany : t.any (fun p => decide (p.1 = k)) = true
  · rw [bump, if_pos hany]
    exact sumCounts_bump_map hnd (any_key_iff.mp hany)
  · rw [bump, if_neg hany]
    simp [sumCounts]

/-- One `bump` keeps the dictionary keys unique. -/
theorem keys_bump_nodup {t : Table} {k : Message}
    (hnd : (keys t).Nodup) : (keys (bump t k)).Nodup := by
  by_cases hany : t.any (fun p => decide (p.1 = k)) = true
  · rw [bump, if_pos hany, keys_bump_map]
    exact hnd
  · rw [bump, if_neg hany]
    have hk : k ∉ keys t := fun h => hany (any_key_iff.mpr h)
    rw [keys, List.map_append]
    exact List.Nodup.append hnd (by simp)
      (by simpa [List.disjoint_singleton, keys] using hk)

/-- One `bump` keeps every stored count at least 1. -/
theorem counts_pos_bump {t : Table} {k : Message}
    (h : ∀ p ∈ t, 1 ≤ p.2) : ∀ p ∈ bump t k, 1 ≤ p.2 := by
  intro p hp
  by_cases hany : t.any (fun q => decide (q.1 = k)) = true
  · rw [bump, if_pos hany] at hp
    rcases List.mem_map.mp hp with ⟨q, hq, hfq⟩
    by_cases hqk : q.1 = k
    · rw [if_pos hqk] at hfq
      rw [← hfq]
      exact Nat.le_succ_of_le (h q hq)
    · rw [if_neg hqk] at hfq
      exact hfq ▸ h q hq
  · rw [bump, if_neg hany] at hp
    rcases List.mem_append.mp hp with hp' | hp'
    · exact h p hp'
    · simp at hp'
      rw [hp']

/-- The empty table counts the empty record sequence. -/
theorem tableInv_nil : TableInv [] [] :=
  ⟨List.nodup_nil, fun _ => rfl, by simp, rfl⟩

/-- Counting one more record preserves the table invariant. -/
theorem tableInv_bump {t : Table} {recs : List RawRecord} {r : RawRecord}
    (h : TableInv t recs) : TableInv (bump t (stripRecord r)) (recs ++ [r]) := by
  obtain ⟨h1, h2, h3, h4⟩ := h
  refine ⟨keys_bump_nodup h1, ?_, counts_pos_bump h3, ?_⟩
  · intro k
    rw [lookupCount_bump, h2 k, List.filter_append, List.length_append]
    by_cases hk : stripRecord r = k
    · rw [if_pos hk.symm]
      simp [hk]
    · rw [if_neg (fun he => hk he.symm)]
      simp [hk]
  · rw [sumCounts_bump h1, h4]
    simp

/-- Pruning one page of records preserves the table invariant. -/
theorem tableInv_pruneRecs (msgs : List RawRecord) :
    ∀ {t : Table} {recs : List RawRecord}, TableInv t recs →
      TableInv (pruneRecs t msgs) (recs ++ msgs) := by
  induction msgs with
  | nil => intro t recs h; simpa using h
  | cons m rest ih =>
    intro t recs h
    have hstep := ih (tableInv_bump (r := m) h)
    simpa [pruneRecs, List.append_assoc] using hstep

/-- Folding pages into the table preserves the invariant. -/
theorem tableInv_foldl :
    ∀ (pages : List (List RawRecord)) (t : Table) (recs : List RawRecord),
      TableInv t recs →
      TableInv (pages.foldl pruneRecs t) (recs ++ pages.flatten) := by
  intro pages
  induction pages with
  | nil => intro t recs h; simpa using h
  | cons pg rest ih =>
    intro t recs h
    have hstep := ih _ _ (tableInv_pruneRecs pg h)
    simpa [List.flatten_cons, List.append_assoc] using hstep

/-- C6: after aggregating any sequence of pages, the frequency table
maps each normalized log key to exactly the number of raw records
across all pages carrying that key; every stored count is at least 1;
the counts sum to the number of records ingested; and the normalized
key ignores the record timestamp, so records differing only there are
counted together. -/
theorem c6_aggregation_counts (pages : List (List RawRecord)) :
    (∀ k, lookupCount (aggregatePages pages) k
        = ((pages.flatten).filter (fun r => decide (stripRecord r = k))).length)
      ∧ (∀ p ∈ aggregatePages pages, 1 ≤ p.2)
      ∧ sumCounts (aggregatePages pages) = (pages.flatten).length
      ∧ ∀ (r : RawRecord) (t₁ t₂ : Nat),
          stripRecord ⟨r.type, r.source, r.code, r.message, r.methodName, t₁⟩
            = stripRecord ⟨r.type, r.source, r.code, r.message, r.methodName, t₂⟩ := by
  have h := tableInv_foldl pages [] [] tableInv_nil
  rw [List.nil_append] at h
  obtain ⟨_, h2, h3, h4⟩ := h
  exact ⟨h2, h3, h4, fun r t₁ t₂ => rfl⟩

/-- Witness for C6: two pages, where two records share a key and
differ only in timestamp. -/
theorem c6_aggregation_counts_witness :
    lookupCount (aggregatePages [[recA, recA2], [recB]]) keyA
        = (([[recA, recA2], [recB]] : List (List RawRecord)).flatten.filter
            (fun r => decide (stripRecord r = keyA))).length
      ∧ 1 ≤ ((keyA, 2) : Message × Nat).2 :=
  ⟨(c6_aggregation_counts [[recA, recA2], [recB]]).1 keyA,
   (c6_aggregation_counts [[recA, recA2], [recB]]).2.1 (keyA, 2) (by decide)⟩

/-- Entry of the orchestrator into the pagination loop: once the
machine is registered, a token obtained and the first page fetched and
pruned, `shipCore`'s outcome is the loop's outcome. -/
theorem shipCore_firstFetch (env : Env) {m : Bool} {L0 : Table} {tok : Str}
    {r : FetchResult} {rest : List FetchResult} {d : Envelope}
    {c : Option Nat} {T0 : Table}
    (hreg : env.registered = true)
    (htok : get_token env.tokenResponse = some (some tok)) (hne : tok ≠ [])
    (hf : env.fetches = r :: rest)
    (hr : get_log_messages r = some (some d, c))
    (hd : d.truthy = true) (hpr : prune L0 d = some T0) :
    shipCore env m L0 =
      match harvestLoop (some d) c rest T0 [none] with
      | .exhausted => .exhausted
      | .crash => .crash
      | .done table trace =>
        .ret ⟨table, some (write_logs table), trace, m, false⟩ := by
  simp [shipCore, hreg, htok, hne, hf, hr, hd, hpr]

/-- Running the pagination loop over mocked successful pages: every
intermediate page hands the loop the cursor it returned, and the
terminal (`hasMore = false`) page ends it. -/
theorem harvestLoop_pages :
    ∀ (pre : List (List RawRecord × Nat)) (last : List RawRecord)
      (t : Nat) (cur : Envelope) (table : Table) (trace : List (Option Nat)),
      0 < t → cur.truthy = true → (∀ p ∈ pre, 0 < p.2) →
      harvestLoop (some cur) (some t)
          (pre.map (fun p => FetchResult.ok (mkMid p.1 p.2))
            ++ [FetchResult.ok (mkLast last)]) table trace
        = .done (pruneRecs (pre.foldl (fun tb p => pruneRecs tb p.1) table) last)
            (trace ++ some t :: pre.map (fun p => some p.2)) := by
  intro pre
  induction pre with
  | nil =>
    intro last t cur table trace ht hcur hpre
    have hne0 : t ≠ 0 := Nat.pos_iff_ne_zero.mp ht
    have hr : get_log_messages (FetchResult.ok (mkLast last))
        = some (some (mkLast last), none) := by
      simp [get_log_messages, return_false_for_status, mkLast]
    have hp : prune table (mkLast last) = some (pruneRecs table last) := by
      simp [prune, mkLast]
    rw [harvestLoop.eq_def]
    simp only [List.map_nil, List.nil_append]
    simp [hcur, cursorTruthy, hne0, hr, hp]
    rw [harvestLoop.eq_def]
    simp [cursorTruthy]
  | cons p pre' ih =>
    intro last t cur table trace ht hcur hpre
    have hne0 : t ≠ 0 := Nat.pos_iff_ne_zero.mp ht
    have hr : get_log_messages (FetchResult.ok (mkMid p.1 p.2))
        = some (some (mkMid p.1 p.2), some p.2) := by
      simp [get_log_messages, return_false_for_status, mkMid]
    have hp : prune table (mkMid p.1 p.2) = some (pruneRecs table p.1) := by
      simp [prune, mkMid]
    rw [harvestLoop.eq_def]
    simp only [List.map_cons, List.cons_append]
    simp [hcur, cursorTruthy, hne0, hr, hp]
    rw [ih last p.2 (mkMid p.1 p.2) (pruneRecs table p.1) (trace ++ [some t])
      (hpre p (List.mem_cons_self p pre')) rfl
      (fun q hq => hpre q (List.mem_cons_of_mem p hq))]
    simp

/-- C8: for every mocked run of N successful pages in which pages
1..N-1 report `hasMore = true` with a (truthy) cursor and page N
reports `hasMore = false`, the loop terminates after exactly N fetch
calls, the first call carrying no start time and each continuation
call carrying exactly the cursor returned by its predecessor. -/
theorem c8_pagination_termination (pre : List (List RawRecord × Nat))
    (last : List RawRecord) (hpre : ∀ p ∈ pre, 0 < p.2) :
    ∃ res : ShipResult,
      ship ⟨true, tokenOk,
          pre.map (fun p => FetchResult.ok (mkMid p.1 p.2))
            ++ [FetchResult.ok (mkLast last)], .transportError⟩ false false []
        = .ret res
      ∧ res.trace = none :: pre.map (fun p => some p.2)
      ∧ res.trace.length = pre.length + 1 := by
  have htok : get_token tokenOk = some (some ("tok".data)) := rfl
  have hne : ("tok".data : Str) ≠ [] := by decide
  cases pre with
  | nil =>
    have hr : get_log_messages (FetchResult.ok (mkLast last))
        = some (some (mkLast last), none) := by
      simp [get_log_messages, return_false_for_status, mkLast]
    have hf : (⟨true, tokenOk,
        List.map (fun p => FetchResult.ok (mkMid p.1 p.2))
            ([] : List (List RawRecord × Nat)) ++
          [FetchResult.ok (mkLast last)], .transportError⟩ : Env).fetches
        = FetchResult.ok (mkLast last) :: [] := by simp
    have hpr : prune ([] : Table) (mkLast last) = some (pruneRecs [] last) := by
      simp [prune, mkLast]
    have hcore := shipCore_firstFetch _ (m := false) rfl htok hne hf hr rfl hpr
    rw [harvestLoop.eq_def] at hcore
    simp only [cursorTruthy, Bool.and_false, if_false] at hcore
    refine ⟨⟨pruneRecs [] last, some (write_logs (pruneRecs [] last)),
      [none], false, false⟩, ?_, rfl, rfl⟩
    unfold ship
    rw [hcore]
    simp
  | cons p pre' =>
    have hr : get_log_messages (FetchResult.ok (mkMid p.1 p.2))
        = some (some (mkMid p.1 p.2), some p.2) := by
      simp [get_log_messages, return_false_for_status, mkMid]
    have hf : (⟨true, tokenOk,
        List.map (fun q => FetchResult.ok (mkMid q.1 q.2)) (p :: pre') ++
          [FetchResult.ok (mkLast last)], .transportError⟩ : Env).fetches
        = FetchResult.ok (mkMid p.1 p.2) ::
            (List.map (fun q => FetchResult.ok (mkMid q.1 q.2)) pre' ++
              [FetchResult.ok (mkLast last)]) := by simp
    have hpr : prune ([] : Table) (mkMid p.1 p.2) = some (pruneRecs [] p.1) := by
      simp [prune, mkMid]
    have hcore := shipCore_firstFetch _ (m := false) rfl htok hne hf hr rfl hpr
    rw [harvestLoop_pages pre' last p.2 (mkMid p.1 p.2) (pruneRecs [] p.1)
      [none] (hpre p (List.mem_cons_self p pre')) rfl
      (fun q hq => hpre q (List.mem_cons_of_mem p hq))] at hcore
    refine ⟨⟨pruneRecs (pre'.foldl (fun tb q => pruneRecs tb q.1)
        (pruneRecs [] p.1)) last,
      some (write_logs (pruneRecs (pre'.foldl (fun tb q => pruneRecs tb q.1)
        (pruneRecs [] p.1)) last)),
      none :: some p.2 :: pre'.map (fun q => some q.2), false, false⟩,
      ?_, by simp, by simp⟩
    unfold ship
    rw [hcore]
    simp

/-- Witness for C8: a two-page run; the continuation call carries the
first page's cursor 5. -/
theorem c8_pagination_termination_witness :
    ∃ res : ShipResult,
      ship ⟨true, tokenOk,
          ([([recA], 5)] : List (List RawRecord × Nat)).map
              (fun p => FetchResult.ok (mkMid p.1 p.2))
            ++ [FetchResult.ok (mkLast [recB])], .transportError⟩ false false []
        = .ret res
      ∧ res.trace = none :: ([([recA], 5)] : List (List RawRecord × Nat)).map
          (fun p => some p.2)
      ∧ res.trace.length = 1 + 1 :=
  c8_pagination_termination [([recA], 5)] [recB] (by decide)

/-- Variant of the loop entry when the first page decodes to an empty
(falsy) dict: the first `prune` is skipped. -/
theorem shipCore_firstFetch_skip (env : Env) (L0 : Table) {m : Bool} {tok : Str}
    {r : FetchResult} {rest : List FetchResult} {d : Envelope} {c : Option Nat}
    (hreg : env.registered = true)
    (htok : get_token env.tokenResponse = some (some tok)) (hne : tok ≠ [])
    (hf : env.fetches = r :: rest)
    (hr : get_log_messages r = some (some d, c))
    (hd : d.truthy = false) :
    shipCore env m L0 =
      match harvestLoop (some d) c rest L0 [none] with
      | .exhausted => .exhausted
      | .crash => .crash
      | .done table trace =>
        .ret ⟨table, some (write_logs table), trace, m, false⟩ := by
  simp [shipCore, hreg, htok, hne, hf, hr, hd]

/-- A loop fed only good responses (successful pages carrying
`logMessages`) never raises. -/
theorem harvestLoop_no_crash :
    ∀ (rs : List FetchResult), (∀ r ∈ rs, GoodFetch r) →
      ∀ logs more table trace, harvestLoop logs more rs table trace ≠ .crash := by
  intro rs
  induction rs with
  | nil =>
    intro _ logs more table trace
    rw [harvestLoop.eq_def]
    split <;> simp
  | cons r rest ih =>
    intro h logs more table trace
    rw [harvestLoop.eq_def]
    split
    · obtain ⟨d, c, hr, hlm⟩ := h r (List.mem_cons_self r rest)
      obtain ⟨msgs, hmsgs⟩ := Option.isSome_iff_exists.mp hlm
      dsimp only
      rw [hr]
      have hpr : prune table d = some (pruneRecs table msgs) := by
        simp [prune, hmsgs]
      dsimp only
      rw [hpr]
      exact ih (fun q hq => h q (List.mem_cons_of_mem r hq)) _ _ _ _
    · simp

/-- A run aborted by a sentinel on the very first fetch returns with
the table untouched, one fetch call made and no report written. -/
theorem ship_first_sentinel {env : Env} (rm m : Bool) (L0 : Table)
    {r : FetchResult} {rest : List FetchResult}
    (hreg : env.registered = true)
    (htok : ∃ tok, get_token env.tokenResponse = some (some tok) ∧ tok ≠ [])
    (hf : env.fetches = r :: rest)
    (hr : get_log_messages r = some (none, none)) :
    ship env rm m L0 = .ret ⟨L0, none, [none], false, false⟩ := by
  obtain ⟨tok, htok', hne⟩ := htok
  simp [ship, shipCore, hreg, htok', hne, hf, hr]

/-- Passing a returning `shipCore` through the cleanup wrapper: the
report and table survive unchanged. -/
theorem ship_of_shipCore_ret (rm : Bool) {env : Env} {m : Bool} {L0 : Table}
    {R : ShipResult}
    (hcl : (clean_logs env.cleanResponse).isSome = true)
    (h : shipCore env m L0 = .ret R) :
    ship env rm m L0 = .ret R
      ∨ ship env rm m L0 = .ret ⟨R.finalLogs, R.report, R.trace, R.emailed, true⟩ := by
  by_cases hc : R.report.isSome = true ∧ rm = true
  · obtain ⟨u, hcu⟩ := Option.isSome_iff_exists.mp hcl
    right
    unfold ship
    rw [h]
    dsimp only
    rw [if_pos hc, hcu]
  · left
    unfold ship
    rw [h]
    dsimp only
    rw [if_neg hc]

/-- C2 (amended): a run whose very first fetch returns the sentinel
aborts without writing; a run whose first fetch succeeds and whose
every fetch response is a good page (no sentinel, `logMessages`
present) returns normally with a report — even a header-only one —
provided the response oracle does not run dry and the cleanup response
(if cleanup is requested) is decodable. -/
theorem c2_first_page_gate (env : Env) (rm m : Bool) (L0 : Table)
    (hreg : env.registered = true)
    (htok : ∃ tok, get_token env.tokenResponse = some (some tok) ∧ tok ≠ [])
    (hcl : (clean_logs env.cleanResponse).isSome = true) :
    (∀ r rest, env.fetches = r :: rest → get_log_messages r = some (none, none) →
        ship env rm m L0 = .ret ⟨L0, none, [none], false, false⟩)
      ∧ ((∀ r ∈ env.fetches, GoodFetch r) → ship env rm m L0 ≠ .exhausted →
          ∃ res rep, ship env rm m L0 = .ret res ∧ res.report = some rep) := by
  obtain ⟨tok, htok', hne⟩ := htok
  constructor
  · intro r rest hf hr
    exact ship_first_sentinel rm m L0 hreg ⟨tok, htok', hne⟩ hf hr
  · intro hgood hexh
    rcases hf : env.fetches with _ | ⟨r, rest⟩
    · exfalso
      apply hexh
      simp [ship, shipCore, hreg, htok', hne, hf]
    · obtain ⟨d, c, hr, hlm⟩ := hgood r (hf ▸ List.mem_cons_self r rest)
      obtain ⟨msgs, hmsgs⟩ := Option.isSome_iff_exists.mp hlm
      have hgrest : ∀ q ∈ rest, GoodFetch q :=
        fun q hq => hgood q (hf ▸ List.mem_cons_of_mem r hq)
      have hpr : prune L0 d = some (pruneRecs L0 msgs) := by
        simp [prune, hmsgs]
      by_cases htr : d.truthy = true
      · have hcore := shipCore_firstFetch env (m := m) hreg htok' hne hf hr htr hpr
        cases hL : harvestLoop (some d) c rest (pruneRecs L0 msgs) [none] with
        | exhausted =>
          exfalso
          apply hexh
          rw [hL] at hcore
          unfold ship
          rw [hcore]
        | crash => exact absurd hL (harvestLoop_no_crash rest hgrest _ _ _ _)
        | done table trace =>
          rw [hL] at hcore
          rcases ship_of_shipCore_ret rm hcl hcore with h | h
          · exact ⟨_, write_logs table, h, rfl⟩
          · exact ⟨_, write_logs table, h, rfl⟩
      · have htr' : d.truthy = false := by
          cases hb : d.truthy with
          | false => rfl
          | true => exact absurd hb htr
        have hcore := shipCore_firstFetch_skip env L0 (m := m) hreg htok' hne hf hr htr'
        cases hL : harvestLoop (some d) c rest L0 [none] with
        | exhausted =>
          exfalso
          apply hexh
          rw [hL] at hcore
          unfold ship
          rw [hcore]
        | crash => exact absurd hL (harvestLoop_no_crash rest hgrest _ _ _ _)
        | done table trace =>
          rw [hL] at hcore
          rcases ship_of_shipCore_ret rm hcl hcore with h | h
          · exact ⟨_, write_logs table, h, rfl⟩
          · exact ⟨_, write_logs table, h, rfl⟩

/-- Witness for C2 (amended): a zero-record single page still yields a
(header-only) report. -/
theorem c2_first_page_gate_witness :
    ∃ res rep,
      ship ⟨true, tokenOk, [.ok (mkLast [])], .transportError⟩ false false []
        = .ret res ∧ res.report = some rep :=
  (c2_first_page_gate ⟨true, tokenOk, [.ok (mkLast [])], .transportError⟩
      false false [] rfl ⟨"tok".data, rfl, by decide⟩ rfl).2
    (by
      intro r hr
      rw [List.mem_singleton] at hr
      subst hr
      exact ⟨mkLast [], none, by decide, rfl⟩)
    (by decide)

/-- One `bump` never lowers or drops an existing entry. -/
theorem bump_mono {t : Table} {k : Message} {c : Nat} (k' : Message)
    (h : (k, c) ∈ t) : ∃ c', c ≤ c' ∧ (k, c') ∈ bump t k' := by
  by_cases hany : t.any (fun p => decide (p.1 = k')) = true
  · rw [bump, if_pos hany]
    by_cases hk : k = k'
    · exact ⟨c + 1, Nat.le_succ c,
        List.mem_map.mpr ⟨(k, c), h, by simp [hk]⟩⟩
    · exact ⟨c, le_refl c,
        List.mem_map.mpr ⟨(k, c), h, by simp [hk]⟩⟩
  · rw [bump, if_neg hany]
    exact ⟨c, le_refl c, List.mem_append.mpr (Or.inl h)⟩

/-- Pruning a page never lowers or drops an existing entry. -/
theorem pruneRecs_mono {msgs : List RawRecord} :
    ∀ {t : Table} {k : Message} {c : Nat}, (k, c) ∈ t →
      ∃ c', c ≤ c' ∧ (k, c') ∈ pruneRecs t msgs := by
  induction msgs with
  | nil => intro t k c h; exact ⟨c, le_refl c, h⟩
  | cons m rest ih =>
    intro t k c h
    obtain ⟨c', hc', hmem⟩ := bump_mono (stripRecord m) h
    obtain ⟨c'', hc'', hmem'⟩ := ih hmem
    exact ⟨c'', le_trans hc' hc'', hmem'⟩

/-- Nor does `prune` itself when it succeeds. -/
theorem prune_mono {d : Envelope} {t T : Table} (h : prune t d = some T)
    {k : Message} {c : Nat} (hm : (k, c) ∈ t) :
    ∃ c', c ≤ c' ∧ (k, c') ∈ T := by
  rw [prune] at h
  cases hd : d.logMessages with
  | none => rw [hd] at h; simp at h
  | some msgs =>
    rw [hd] at h
    simp only [Option.some_inj] at h
    exact h ▸ pruneRecs_mono hm

/-- Entries present when the pagination loop starts survive (with
counts at least as large) into the table the loop delivers. -/
theorem harvestLoop_mono :
    ∀ (rs : List FetchResult) (logs : Option Envelope) (more : Option Nat)
      (table : Table) (trace : List (Option Nat))
      (table' : Table) (trace' : List (Option Nat)),
      harvestLoop logs more rs table trace = .done table' trace' →
      ∀ k c, (k, c) ∈ table → ∃ c', c ≤ c' ∧ (k, c') ∈ table' := by
  intro rs
  induction rs with
  | nil =>
    intro logs more table trace table' trace' h k c hm
    rw [harvestLoop.eq_def] at h
    split at h
    · simp at h
    · injection h with h1 _
      exact ⟨c, le_refl c, h1 ▸ hm⟩
  | cons r rest ih =>
    intro logs more table trace table' trace' h k c hm
    rw [harvestLoop.eq_def] at h
    split at h
    · dsimp only at h
      cases hg : get_log_messages r with
      | none => rw [hg] at h; simp at h
      | some pr =>
        rw [hg] at h
        obtain ⟨lg, c0⟩ := pr
        cases lg with
        | none => simp at h
        | some d =>
          dsimp only at h
          cases hp : prune table d with
          | none => rw [hp] at h; simp at h
          | some T =>
            rw [hp] at h
            obtain ⟨c1, hc1, hm1⟩ := prune_mono hp hm
            obtain ⟨c2, hc2, hm2⟩ := ih _ _ _ _ _ _ h k c1 hm1
            exact ⟨c2, le_trans hc1 hc2, hm2⟩
    · injection h with h1 _
      exact ⟨c, le_refl c, h1 ▸ hm⟩

/-- Within one run, `shipCore` only ever grows the table it was handed
(the module-level `LOGS`), and any report it writes is exactly
`write_logs` of its final table. -/
theorem shipCore_mono {env : Env} {m : Bool} {L0 : Table} {R : ShipResult}
    (h : shipCore env m L0 = .ret R) :
    (∀ k c, (k, c) ∈ L0 → ∃ c', c ≤ c' ∧ (k, c') ∈ R.finalLogs)
      ∧ (∀ rep, R.report = some rep → rep = write_logs R.finalLogs) := by
  unfold shipCore at h
  by_cases hreg : env.registered = true
  · rw [hreg] at h
    simp only [Bool.not_true, Bool.false_eq_true, if_false] at h
    cases hgt : get_token env.tokenResponse with
    | none => rw [hgt] at h; simp at h
    | some o =>
      rw [hgt] at h
      cases o with
      | none =>
        simp only [Option.some_inj] at h
        injection h with h1
        rw [← h1]
        exact ⟨fun k c hm => ⟨c, le_refl c, hm⟩, by simp⟩
      | some tok =>
        dsimp only at h
        by_cases hne : tok = []
        · rw [if_pos hne] at h
          injection h with h1
          rw [← h1]
          exact ⟨fun k c hm => ⟨c, le_refl c, hm⟩, by simp⟩
        · rw [if_neg hne] at h
          cases hf : env.fetches with
          | nil => rw [hf] at h; simp at h
          | cons r rest =>
            rw [hf] at h
            dsimp only at h
            cases hg : get_log_messages r with
            | none => rw [hg] at h; simp at h
            | some pr =>
              rw [hg] at h
              obtain ⟨lg, mo⟩ := pr
              dsimp only at h
              by_cases hsent : lg = none ∧ mo = none
              · rw [if_pos hsent] at h
                injection h with h1
                rw [← h1]
                exact ⟨fun k c hm => ⟨c, le_refl c, hm⟩, by simp⟩
              · rw [if_neg hsent] at h
                have hmain :
                    ∃ T0, (∀ k c, (k, c) ∈ L0 → ∃ c', c ≤ c' ∧ (k, c') ∈ T0)
                      ∧ (match harvestLoop lg mo rest T0 [none] with
                          | .exhausted => ShipOutcome.exhausted
                          | .crash => ShipOutcome.crash
                          | .done table trace =>
                            .ret ⟨table, some (write_logs table), trace, m, false⟩)
                          = .ret R := by
                  cases lg with
                  | none => exact ⟨L0, fun k c hm => ⟨c, le_refl c, hm⟩, h⟩
                  | some d =>
                    dsimp only at h
                    by_cases htr : d.truthy = true
                    · rw [if_pos htr] at h
                      cases hp : prune L0 d with
                      | none => rw [hp] at h; simp at h
                      | some T =>
                        rw [hp] at h
                        exact ⟨T, fun k c hm => prune_mono hp hm, h⟩
                    · rw [if_neg htr] at h
                      exact ⟨L0, fun k c hm => ⟨c, le_refl c, hm⟩, h⟩
                obtain ⟨T0, hT0, hrun⟩ := hmain
                cases hL : harvestLoop lg mo rest T0 [none] with
                | exhausted => rw [hL] at hrun; simp at hrun
                | crash => rw [hL] at hrun; simp at hrun
                | done table trace =>
                  rw [hL] at hrun
                  simp only [Option.some_inj] at hrun
                  injection hrun with h1
                  rw [← h1]
                  refine ⟨fun k c hm => ?_, by simp⟩
                  obtain ⟨c1, hc1, hm1⟩ := hT0 k c hm
                  obtain ⟨c2, hc2, hm2⟩ := harvestLoop_mono rest lg mo T0 [none]
                    table trace hL k c1 hm1
                  exact ⟨c2, le_trans hc1 hc2, hm2⟩
  · have hreg' : env.registered = false := by
      cases hb : env.registered with
      | false => rfl
      | true => exact absurd hb hreg
    rw [hreg'] at h
    simp only [Bool.not_false, if_true] at h
    injection h with h1
    rw [← h1]
    exact ⟨fun k c hm => ⟨c, le_refl c, hm⟩, by simp⟩

/-- C4 (amended): `ship` never resets the module-level table: every
entry of the table at call time survives into the run's final table
with a count at least as large (so a second run in the same process
reports the first run's keys too), and any report written is exactly
the serialization of that shared final table. -/
theorem c4_global_table_monotone (env : Env) (rm m : Bool) (L0 : Table)
    (R : ShipResult) (hrun : ship env rm m L0 = .ret R) :
    (∀ k c, (k, c) ∈ L0 → ∃ c', c ≤ c' ∧ (k, c') ∈ R.finalLogs)
      ∧ (∀ rep, R.report = some rep → rep = write_logs R.finalLogs) := by
  unfold ship at hrun
  cases hc : shipCore env m L0 with
  | exhausted => rw [hc] at hrun; simp at hrun
  | crash => rw [hc] at hrun; simp at hrun
  | ret R0 =>
    rw [hc] at hrun
    have hspec := shipCore_mono hc
    dsimp only at hrun
    by_cases hcond : R0.report.isSome = true ∧ rm = true
    · rw [if_pos hcond] at hrun
      cases hcl : clean_logs env.cleanResponse with
      | none => rw [hcl] at hrun; simp at hrun
      | some u =>
        rw [hcl] at hrun
        injection hrun with h1
        rw [← h1]
        exact ⟨fun k c hm => hspec.1 k c hm, fun rep hrep => hspec.2 rep hrep⟩
    · rw [if_neg hcond] at hrun
      injection hrun with h1
      rw [← h1]
      exact hspec

/-- Witness for C4 (amended): run 2 of the shared-global scenario,
started on the table run 1 left behind, still carries run 1's entry. -/
theorem c4_global_table_monotone_witness :
    ∃ c', 1 ≤ c' ∧ (keyA, c') ∈
      (⟨[(keyA, 1), (keyB, 1)], some (write_logs [(keyA, 1), (keyB, 1)]),
        [none], false, false⟩ : ShipResult).finalLogs :=
  (c4_global_table_monotone envRun2 false false [(keyA, 1)] _ (by decide)).1
    keyA 1 (by decide)

end Bulldozer
